import Mathlib

/-
Verification of the log-writer core (log-viewer/log-writer.py): the ANSI
filter, the rotation sink (single-backup and timed-daily policies), the
stream pump's exit-code and signal-shutdown contracts, and the
LOG_ROTATE_DAYS configuration parsing.

Pure functions are translated directly from the source; the parts of the
rotation engine that live in the Python standard library (the rotating
file handlers) are modelled from the specification, as marked on each
definition.
-/

namespace LogWriter

/-! ### ANSI/control-sequence filter (strip_ansi_codes) -/

/-- Character class `[0-9;]` of the source regex. -/
def isAnsiBody (c : Char) : Bool := c.isDigit || c == ';'

/-- Attempt to finish a match of the regex after having consumed
`ESC [`: consume the maximal run of `[0-9;]` characters and then one
ASCII letter; return the remainder of the input on success.  This is the
greedy semantics of the source pattern because the body class and the
letter class are disjoint. -/
def ansiTail : List Char → Option (List Char)
  | [] => none
  | c :: cs => if isAnsiBody c then ansiTail cs else if c.isAlpha then some cs else none

/-- One match attempt of the source regex at the head of the input:
succeeds exactly when the input starts with `ESC [` followed by a body
run and a terminating ASCII letter, returning the input after the match. -/
def stripStep (l : List Char) : Option (List Char) :=
  match l with
  | c :: d :: rest => if c = '\x1b' ∧ d = '[' then ansiTail rest else none
  | _ => none

/-- Fuelled scanner implementing `re.sub(pattern, "", text)`: at each
position, remove a match if one starts there and continue after it,
otherwise keep the character and continue one position further.  The
fuel only serves to make the recursion structural; it is always called
with fuel at least the length of the list. -/
def stripAnsiFuel : Nat → List Char → List Char
  | 0, l => l
  | _ + 1, [] => []
  | fuel + 1, c :: cs =>
    match stripStep (c :: cs) with
    | some r => stripAnsiFuel fuel r
    | none => c :: stripAnsiFuel fuel cs

/-- The substitution pass of `strip_ansi_codes` on a character list. -/
def stripAnsiList (l : List Char) : List Char := stripAnsiFuel l.length l

/-- From src `strip_ansi_codes`: remove all matches of the regex
`\x1b\[[0-9;]*[a-zA-Z]` from the text. -/
def strip_ansi_codes (s : String) : String := String.mk (stripAnsiList s.data)

/-- A character in the body class `[0-9;]` is never an ASCII letter. -/
theorem not_isAlpha_of_isAnsiBody {t : Char} (hb : isAnsiBody t = true) : t.isAlpha = false := by
  cases ha : t.isAlpha
  · rfl
  · exfalso
    have hd : t.isDigit = true ∨ (t == ';') = true := by
      simpa [isAnsiBody] using hb
    rcases hd with hd | hs
    · simp only [Char.isDigit, Char.isAlpha, Char.isUpper, Char.isLower, Bool.and_eq_true,
        Bool.or_eq_true, decide_eq_true_eq, ge_iff_le, UInt32.le_def, BitVec.le_def,
        UInt32.toBitVec_ofNat, BitVec.toNat_ofNat] at hd ha
      omega
    · have h : t = ';' := beq_iff_eq.mp hs
      subst h
      simp [Char.isAlpha, Char.isUpper, Char.isLower] at ha

theorem ansiTail_length : ∀ {l r : List Char}, ansiTail l = some r → r.length < l.length := by
  intro l
  induction l with
  | nil => intro r h; simp [ansiTail] at h
  | cons c cs ih =>
    intro r h
    simp only [ansiTail] at h
    by_cases hb : isAnsiBody c = true
    · rw [if_pos hb] at h
      exact Nat.lt_trans (ih h) (Nat.lt_succ_self _)
    · rw [if_neg hb] at h
      by_cases ha : c.isAlpha = true
      · rw [if_pos ha] at h
        cases h
        exact Nat.lt_succ_self _
      · rw [if_neg ha] at h
        exact absurd h (by simp)

theorem ansiTail_sound : ∀ {l r : List Char}, ansiTail l = some r →
    ∃ body t, l = body ++ t :: r ∧ (∀ c ∈ body, isAnsiBody c = true) ∧ t.isAlpha = true := by
  intro l
  induction l with
  | nil => intro r h; simp [ansiTail] at h
  | cons c cs ih =>
    intro r h
    simp only [ansiTail] at h
    by_cases hb : isAnsiBody c = true
    · rw [if_pos hb] at h
      obtain ⟨body, t, heq, hall, ht⟩ := ih h
      refine ⟨c :: body, t, by simp [heq], ?_, ht⟩
      intro x hx
      rcases List.mem_cons.mp hx with hx | hx
      · subst hx; exact hb
      · exact hall x hx
    · rw [if_neg hb] at h
      by_cases ha : c.isAlpha = true
      · rw [if_pos ha] at h
        cases h
        exact ⟨[], c, by simp, by simp, ha⟩
      · rw [if_neg ha] at h
        exact absurd h (by simp)

theorem ansiTail_isSome_of_shape : ∀ (body : List Char) (t : Char) (rest : List Char),
    (∀ c ∈ body, isAnsiBody c = true) → t.isAlpha = true →
    ansiTail (body ++ t :: rest) = some rest := by
  intro body
  induction body with
  | nil =>
    intro t rest hall ht
    have hb : isAnsiBody t = false := by
      cases hbt : isAnsiBody t
      · rfl
      · exact absurd (not_isAlpha_of_isAnsiBody hbt) (by simp [ht])
    simp [ansiTail, hb, ht]
  | cons b body ih =>
    intro t rest hall ht
    have hb : isAnsiBody b = true := hall b (List.mem_cons_self _ _)
    simp only [List.cons_append, ansiTail, hb, if_true]
    exact ih t rest (fun c hc => hall c (List.mem_cons_of_mem _ hc)) ht

theorem stripStep_length : ∀ {l r : List Char}, stripStep l = some r → r.length + 3 ≤ l.length := by
  intro l r h
  match l with
  | [] => simp [stripStep] at h
  | [c] => simp [stripStep] at h
  | c :: d :: rest =>
    simp only [stripStep] at h
    by_cases hcd : c = '\x1b' ∧ d = '['
    · simp only [hcd, if_true] at h
      have := ansiTail_length h
      simp only [List.length_cons]
      omega
    · simp [hcd] at h

theorem stripAnsiFuel_eq_of_le : ∀ (n m : Nat) (l : List Char),
    l.length ≤ n → l.length ≤ m → stripAnsiFuel n l = stripAnsiFuel m l := by
  intro n
  induction n with
  | zero =>
    intro m l hn _
    have : l = [] := List.length_eq_zero.mp (Nat.le_zero.mp hn)
    subst this
    cases m <;> rfl
  | succ n ih =>
    intro m l hn hm
    match l with
    | [] => cases m <;> rfl
    | c :: cs =>
      have hm1 : ∃ m', m = m' + 1 := by
        cases m
        · simp at hm
        · exact ⟨_, rfl⟩
      obtain ⟨m', rfl⟩ := hm1
      simp only [List.length_cons] at hn hm
      simp only [stripAnsiFuel]
      cases h : stripStep (c :: cs) with
      | some r =>
        have hlen := stripStep_length h
        simp only [List.length_cons] at hlen
        exact ih m' r (by omega) (by omega)
      | none =>
        rw [ih m' cs (by omega) (by omega)]

theorem stripAnsiList_cons_none {c : Char} {cs : List Char}
    (h : stripStep (c :: cs) = none) :
    stripAnsiList (c :: cs) = c :: stripAnsiList cs := by
  simp [stripAnsiList, List.length_cons, stripAnsiFuel, h]

theorem stripAnsiList_cons_some {c : Char} {cs r : List Char}
    (h : stripStep (c :: cs) = some r) :
    stripAnsiList (c :: cs) = stripAnsiList r := by
  have hlen := stripStep_length h
  simp only [List.length_cons] at hlen
  simp only [stripAnsiList, List.length_cons, stripAnsiFuel, h]
  exact stripAnsiFuel_eq_of_le _ _ r (by omega) (by omega)

example : strip_ansi_codes "\x1b[31mERROR\x1b[0m: boom" = "ERROR: boom" := by decide

example : strip_ansi_codes "\x1b[\x1b[0m0m" = "\x1b[0m" := by decide

/-- Spec-level statement that a well-formed ANSI escape sequence starts
here: `ESC [`, zero or more characters from the digit/semicolon set, and
one terminating ASCII letter. -/
def StartsAnsi (l : List Char) : Prop :=
  ∃ body t rest, l = '\x1b' :: '[' :: (body ++ t :: rest) ∧
    (∀ c ∈ body, isAnsiBody c = true) ∧ t.isAlpha = true

/-- Spec-level relation between an input and the result of removing
exactly the well-formed ANSI escape sequences: each position either does
not start a well-formed sequence and its character is kept in order, or
starts one whole well-formed sequence, which is dropped. -/
inductive Chunks : List Char → List Char → Prop
  | nil : Chunks [] []
  | keepChar {c : Char} {s out : List Char} :
      ¬ StartsAnsi (c :: s) → Chunks s out → Chunks (c :: s) (c :: out)
  | dropSeq {body : List Char} {t : Char} {rest out : List Char} :
      (∀ c ∈ body, isAnsiBody c = true) → t.isAlpha = true →
      Chunks rest out → Chunks ('\x1b' :: '[' :: (body ++ t :: rest)) out

theorem stripStep_some_shape : ∀ {l r : List Char}, stripStep l = some r →
    ∃ body t, l = '\x1b' :: '[' :: (body ++ t :: r) ∧
      (∀ c ∈ body, isAnsiBody c = true) ∧ t.isAlpha = true := by
  intro l r h
  match l with
  | [] => simp [stripStep] at h
  | [c] => simp [stripStep] at h
  | c :: d :: rest =>
    simp only [stripStep] at h
    by_cases hcd : c = '\x1b' ∧ d = '['
    · rw [if_pos hcd] at h
      obtain ⟨body, t, heq, hall, ht⟩ := ansiTail_sound h
      exact ⟨body, t, by rw [hcd.1, hcd.2, heq], hall, ht⟩
    · rw [if_neg hcd] at h
      exact absurd h (by simp)

theorem stripStep_none_not_startsAnsi : ∀ {l : List Char}, stripStep l = none →
    ¬ StartsAnsi l := by
  intro l h hs
  obtain ⟨body, t, rest, heq, hall, ht⟩ := hs
  subst heq
  have htail := ansiTail_isSome_of_shape body t rest hall ht
  simp [stripStep, htail] at h

theorem chunks_strip_aux : ∀ (n : Nat) (l : List Char), l.length ≤ n →
    Chunks l (stripAnsiList l) := by
  intro n
  induction n with
  | zero =>
    intro l hl
    have : l = [] := List.length_eq_zero.mp (Nat.le_zero.mp hl)
    subst this
    exact Chunks.nil
  | succ n ih =>
    intro l hl
    match l with
    | [] => exact Chunks.nil
    | c :: cs =>
      cases h : stripStep (c :: cs) with
      | none =>
        rw [stripAnsiList_cons_none h]
        exact Chunks.keepChar (stripStep_none_not_startsAnsi h)
          (ih cs (by simp only [List.length_cons] at hl; omega))
      | some r =>
        obtain ⟨body, t, heq, hall, ht⟩ := stripStep_some_shape h
        have hlen := stripStep_length h
        rw [stripAnsiList_cons_some h, heq]
        exact Chunks.dropSeq hall ht (ih r (by omega))

/-- C2: for every input string, `strip_ansi_codes` removes exactly the
substrings of the form `ESC [`, zero or more digit/semicolon characters,
and one terminating ASCII letter; every character not inside such a
sequence — including any `ESC [` prefix that is not followed by the
terminator pattern — is kept unchanged and in its original order.  The
function is a total Lean function, so no input makes it fail. -/
theorem strip_ansi_codes_removes_exactly_ansi (s : String) :
    Chunks s.data (strip_ansi_codes s).data :=
  chunks_strip_aux s.data.length s.data (Nat.le_refl _)

/-- C9 is false as stated: removing a well-formed sequence can splice
the surrounding characters into a new well-formed sequence, so a second
pass can remove more.  On `"\x1b[\x1b[0m0m"` the first pass yields
`"\x1b[0m"` and the second pass yields `""`. -/
theorem strip_ansi_codes_not_idempotent :
    strip_ansi_codes (strip_ansi_codes "\x1b[\x1b[0m0m") ≠
      strip_ansi_codes "\x1b[\x1b[0m0m" := by decide

/-- Holds when no character of the list is the ESC character. -/
def noEsc (l : List Char) : Bool := l.all (fun c => !(c == '\x1b'))

theorem stripStep_none_of_not_esc {c : Char} {cs : List Char} (h : ¬ c = '\x1b') :
    stripStep (c :: cs) = none := by
  match cs with
  | [] => rfl
  | d :: rest =>
    simp only [stripStep]
    rw [if_neg]
    intro hcd
    exact h hcd.1

theorem stripAnsiList_of_noEsc : ∀ (l : List Char), noEsc l = true → stripAnsiList l = l := by
  intro l
  induction l with
  | nil => intro _; rfl
  | cons c cs ih =>
    intro h
    simp only [noEsc, List.all_cons, Bool.and_eq_true, Bool.not_eq_true', beq_eq_false_iff_ne,
      ne_eq] at h
    rw [stripAnsiList_cons_none (stripStep_none_of_not_esc h.1)]
    rw [ih (by simpa [noEsc] using h.2)]

/-- C9 amended: filtering is idempotent on every string whose filtered
result contains no ESC character (in particular whenever the first pass
removed all escape-sequence material); it is not idempotent in general. -/
theorem strip_ansi_codes_idempotent_on_clean (s : String)
    (h : noEsc (strip_ansi_codes s).data = true) :
    strip_ansi_codes (strip_ansi_codes s) = strip_ansi_codes s := by
  have h2 : stripAnsiList (strip_ansi_codes s).data = (strip_ansi_codes s).data :=
    stripAnsiList_of_noEsc _ h
  show String.mk (stripAnsiList (strip_ansi_codes s).data) = strip_ansi_codes s
  rw [h2]

/-- Concrete instance of the amended C9 theorem on the spec's own
example string. -/
theorem strip_ansi_codes_idempotent_on_clean_witness :
    noEsc (strip_ansi_codes "\x1b[31mERROR\x1b[0m: boom").data = true ∧
    strip_ansi_codes (strip_ansi_codes "\x1b[31mERROR\x1b[0m: boom") =
      strip_ansi_codes "\x1b[31mERROR\x1b[0m: boom" :=
  ⟨by decide, strip_ansi_codes_idempotent_on_clean _ (by decide)⟩

/-! ### Timed-daily rotation sink (TimedDaily policy) -/

/-- On-disk state of the timed sink: lines of the active file, the
rotated backup files (most recent first), and the day of the last
rotation boundary the sink has seen. -/
structure TimedState where
  active : List String
  backups : List (List String)
  curDay : Nat
deriving DecidableEq

/-- Modelled from the spec: for TimedDaily no rollover occurs at
construction; the sink opens the existing files unchanged and records
the current day. -/
def timedConstruct (active0 : List String) (backups0 : List (List String)) (day : Nat) :
    TimedState :=
  { active := active0, backups := backups0, curDay := day }

/-- Modelled from the spec: `emit` for TimedDaily rotates at the first
emit after a midnight boundary has been crossed since the last emit
(the current day exceeds the recorded day); rotation moves the active
file to the front of the backups, keeps at most `keep` backups deleting
the oldest excess, and starts the fresh active file; then the line is
appended to the active file. -/
def timedEmit (keep : Nat) (day : Nat) (line : String) (st : TimedState) : TimedState :=
  if st.curDay < day then
    { active := [line], backups := (st.active :: st.backups).take keep, curDay := day }
  else
    { st with active := st.active ++ [line] }

/-- Emit a sequence of (day, line) events in order. -/
def runEmits (keep : Nat) (evs : List (Nat × String)) (st : TimedState) : TimedState :=
  evs.foldl (fun s e => timedEmit keep e.1 e.2 s) st

/-- Read back the surviving content: the rotated backups in rotation
order (oldest first) followed by the active file. -/
def readBack (st : TimedState) : List String := st.backups.reverse.flatten ++ st.active

/-- Number of rotations a sequence of events triggers, starting from a
given recorded day.  Rotation is triggered exactly when an event's day
exceeds the recorded day, which the rotation then updates. -/
def rotationsFrom : List (Nat × String) → Nat → Nat
  | [], _ => 0
  | (d, _) :: evs, cur => if cur < d then 1 + rotationsFrom evs d else rotationsFrom evs cur

theorem timedEmit_readBack (keep day : Nat) (line : String) (st : TimedState) :
    ∃ j, j ≤ (readBack st).length ∧
      readBack (timedEmit keep day line st) = (readBack st).drop j ++ [line] := by
  by_cases hrot : st.curDay < day
  · match keep with
    | 0 =>
      refine ⟨(readBack st).length, Nat.le_refl _, ?_⟩
      simp [timedEmit, hrot, readBack]
    | k + 1 =>
      have hsplit : st.backups.reverse =
          st.backups.reverse.take (st.backups.length - k) ++
            st.backups.reverse.drop (st.backups.length - k) :=
        (List.take_append_drop _ _).symm
      have hrb : readBack st =
          (st.backups.reverse.take (st.backups.length - k)).flatten ++
            ((st.backups.reverse.drop (st.backups.length - k)).flatten ++ st.active) := by
        rw [readBack]
        conv_lhs => rw [hsplit]
        rw [List.flatten_append, List.append_assoc]
      refine ⟨((st.backups.reverse.take (st.backups.length - k)).flatten).length, ?_, ?_⟩
      · rw [hrb, List.length_append]
        exact Nat.le_add_right _ _
      · rw [hrb, List.drop_left]
        simp only [timedEmit, if_pos hrot, readBack, List.take_succ_cons, List.reverse_cons,
          List.flatten_concat]
        rw [List.reverse_take]
  · refine ⟨0, Nat.zero_le _, ?_⟩
    simp [timedEmit, hrot, readBack, List.append_assoc]

theorem runEmits_readBack (keep : Nat) : ∀ (evs : List (Nat × String)) (st : TimedState),
    ∃ k, readBack (runEmits keep evs st) = (readBack st ++ evs.map Prod.snd).drop k := by
  intro evs
  induction evs with
  | nil => intro st; exact ⟨0, by simp [runEmits]⟩
  | cons ev evs ih =>
    intro st
    obtain ⟨j, hj, hstep⟩ := timedEmit_readBack keep ev.1 ev.2 st
    obtain ⟨k, hk⟩ := ih (timedEmit keep ev.1 ev.2 st)
    refine ⟨j + k, ?_⟩
    have h1 : runEmits keep (ev :: evs) st = runEmits keep evs (timedEmit keep ev.1 ev.2 st) := rfl
    rw [h1, hk, hstep, List.map_cons]
    rw [show readBack st ++ ev.2 :: List.map Prod.snd evs
        = readBack st ++ ([ev.2] ++ List.map Prod.snd evs) from by simp]
    rw [← List.drop_drop, List.drop_append_of_le_length hj]
    simp [List.append_assoc]

theorem runEmits_readBack_exact (keep : Nat) : ∀ (evs : List (Nat × String)) (st : TimedState),
    st.backups.length + rotationsFrom evs st.curDay ≤ keep →
    readBack (runEmits keep evs st) = readBack st ++ evs.map Prod.snd := by
  intro evs
  induction evs with
  | nil => intro st _; simp [runEmits]
  | cons ev evs ih =>
    intro st hb
    match ev with
    | (d, line) =>
      have h1 : runEmits keep ((d, line) :: evs) st
          = runEmits keep evs (timedEmit keep d line st) := rfl
      by_cases hrot : st.curDay < d
      · have hco : rotationsFrom ((d, line) :: evs) st.curDay = 1 + rotationsFrom evs d := by
          simp [rotationsFrom, hrot]
        rw [hco] at hb
        have htake : (st.active :: st.backups).take keep = st.active :: st.backups :=
          List.take_of_length_le (by simp only [List.length_cons]; omega)
        have hst2 : timedEmit keep d line st =
            { active := [line], backups := st.active :: st.backups, curDay := d } := by
          simp [timedEmit, hrot, htake]
        rw [h1, hst2, ih _ (by simp only [List.length_cons]; omega)]
        simp [readBack, List.reverse_cons, List.flatten_concat, List.append_assoc]
      · have hco : rotationsFrom ((d, line) :: evs) st.curDay = rotationsFrom evs st.curDay := by
          simp [rotationsFrom, hrot]
        rw [hco] at hb
        have hst2 : timedEmit keep d line st = { st with active := st.active ++ [line] } := by
          simp [timedEmit, hrot]
        rw [h1, hst2, ih _ (by simpa using hb)]
        simp [readBack, List.append_assoc]

/-- C1 fails as stated when rotations outnumber the retention limit:
with `keep = 1` and three emits on three successive days, the oldest
backup is deleted, so reading back the backups and the active file no
longer yields all three lines. -/
theorem emit_readback_loses_lines_under_retention :
    readBack (runEmits 1 [(1, "L1"), (2, "L2"), (3, "L3")] (timedConstruct [] [] 0)) ≠
      ["L1", "L2", "L3"] := by decide

/-- C1 amended: reading back the surviving backups (in rotation order)
and the active file always yields a contiguous suffix of the emitted
lines, in emission order, with no line duplicated, split or reordered;
it is exactly the whole emitted sequence whenever the number of
rotations does not exceed the retention limit, and lines are lost only
when whole old backups are deleted by the limit.  Moreover content
written before a rotation never appears in the post-rotation active
file: right after a rotation the active file holds only the line being
emitted. -/
theorem emit_append_only_order_preserving (keep : Nat) (evs : List (Nat × String)) (d0 : Nat) :
    (∃ k, readBack (runEmits keep evs (timedConstruct [] [] d0)) = (evs.map Prod.snd).drop k)
    ∧ (rotationsFrom evs d0 ≤ keep →
        readBack (runEmits keep evs (timedConstruct [] [] d0)) = evs.map Prod.snd)
    ∧ (∀ (st : TimedState) (day : Nat) (line : String), st.curDay < day →
        (timedEmit keep day line st).active = [line]) := by
  refine ⟨?_, ?_, ?_⟩
  · obtain ⟨k, hk⟩ := runEmits_readBack keep evs (timedConstruct [] [] d0)
    refine ⟨k, ?_⟩
    rw [hk]
    simp [readBack, timedConstruct]
  · intro hrot
    have h := runEmits_readBack_exact keep evs (timedConstruct [] [] d0)
      (by simpa [timedConstruct] using hrot)
    rw [h]
    simp [readBack, timedConstruct]
  · intro st day line h
    simp [timedEmit, h]

/-- Concrete instance of the amended C1 theorem: two emits across two
midnight boundaries with retention 2 read back exactly, and a rotating
emit leaves only the new line in the active file. -/
theorem emit_append_only_order_preserving_witness :
    rotationsFrom [(1, "a"), (2, "b")] 0 ≤ 2 ∧
    readBack (runEmits 2 [(1, "a"), (2, "b")] (timedConstruct [] [] 0)) = ["a", "b"] ∧
    (timedEmit 2 1 "c" (timedConstruct [] [] 0)).active = ["c"] :=
  ⟨by decide,
    (emit_append_only_order_preserving 2 [(1, "a"), (2, "b")] 0).2.1 (by decide),
    (emit_append_only_order_preserving 2 [(1, "a"), (2, "b")] 0).2.2
      (timedConstruct [] [] 0) 1 "c" (by decide)⟩

/-- A run of `M` emits on `M` successive days after day `d0`, emitting
line `f i` on day `d0 + i + 1`, so that every emit crosses a midnight
boundary and rotates. -/
def dailySeq (d0 : Nat) (f : Nat → String) (M : Nat) : List (Nat × String) :=
  (List.range M).map (fun i => (d0 + i + 1, f i))

/-- The contents rotated by the first `k` emits of `dailySeq`, most
recent first: the active file at rotation `i + 1` holds exactly `[f i]`. -/
def rotSnapshots (f : Nat → String) (k : Nat) : List (List String) :=
  ((List.range k).map (fun i => [f i])).reverse

theorem runEmits_append (keep : Nat) (xs ys : List (Nat × String)) (st : TimedState) :
    runEmits keep (xs ++ ys) st = runEmits keep ys (runEmits keep xs st) := by
  simp [runEmits]

theorem take_cons_take {α : Type} (k : Nat) (x : α) (l : List α) :
    (x :: l.take k).take k = (x :: l).take k := by
  match k with
  | 0 => rfl
  | k + 1 =>
    simp only [List.take_succ_cons, List.take_take]
    rw [Nat.min_eq_left (Nat.le_succ k)]

theorem runEmits_dailySeq (keep : Nat) (d0 : Nat) (f : Nat → String) (a0 : List String) :
    ∀ M : Nat, runEmits keep (dailySeq d0 f (M + 1)) (timedConstruct a0 [] d0) =
      { active := [f M], backups := (rotSnapshots f M ++ [a0]).take keep,
        curDay := d0 + M + 1 } := by
  intro M
  induction M with
  | zero =>
    have h1 : dailySeq d0 f 1 = [(d0 + 0 + 1, f 0)] := by
      simp [dailySeq, List.range_succ]
    rw [h1]
    show timedEmit keep (d0 + 0 + 1) (f 0) (timedConstruct a0 [] d0) = _
    unfold timedEmit timedConstruct
    rw [if_pos (show d0 < d0 + 0 + 1 by omega)]
    simp [rotSnapshots]
  | succ M ih =>
    have hseq : dailySeq d0 f (M + 1 + 1)
        = dailySeq d0 f (M + 1) ++ [(d0 + (M + 1) + 1, f (M + 1))] := by
      simp [dailySeq, List.range_succ]
    rw [hseq, runEmits_append, ih]
    show timedEmit keep (d0 + (M + 1) + 1) (f (M + 1)) _ = _
    unfold timedEmit
    rw [if_pos (show d0 + M + 1 < d0 + (M + 1) + 1 by omega)]
    have hsnap : rotSnapshots f (M + 1) = [f M] :: rotSnapshots f M := by
      simp [rotSnapshots, List.range_succ]
    simp only []
    rw [take_cons_take, hsnap, List.cons_append]

theorem runEmits_backups_le (keep : Nat) : ∀ (evs : List (Nat × String)) (st : TimedState),
    st.backups.length ≤ keep → (runEmits keep evs st).backups.length ≤ keep := by
  intro evs
  induction evs with
  | nil => intro st h; exact h
  | cons ev evs ih =>
    intro st h
    have h1 : runEmits keep (ev :: evs) st = runEmits keep evs (timedEmit keep ev.1 ev.2 st) := rfl
    rw [h1]
    apply ih
    by_cases hrot : st.curDay < ev.1
    · simp only [timedEmit, if_pos hrot]
      simp [List.length_take]
    · simpa [timedEmit, hrot] using h

/-- C3: with the TimedDaily policy and a positive retention count, no
rollover happens at construction (the files are taken over unchanged);
an emit rotates exactly when its day has crossed a midnight boundary
since the last recorded day, and otherwise appends in place; the number
of retained backups never exceeds the retention count; and after `M`
rotations with `M` exceeding the count `N`, exactly `N` backups remain
and they are the `N` most recent rotated contents. -/
theorem timed_daily_retention (keep : Nat) (_hkeep : 0 < keep) :
    (∀ (a0 : List String) (b0 : List (List String)) (d : Nat),
        (timedConstruct a0 b0 d).active = a0 ∧ (timedConstruct a0 b0 d).backups = b0)
    ∧ (∀ (st : TimedState) (day : Nat) (line : String), st.curDay < day →
        timedEmit keep day line st =
          { active := [line], backups := (st.active :: st.backups).take keep, curDay := day })
    ∧ (∀ (st : TimedState) (day : Nat) (line : String), ¬ st.curDay < day →
        timedEmit keep day line st = { st with active := st.active ++ [line] })
    ∧ (∀ (evs : List (Nat × String)) (st : TimedState),
        st.backups.length ≤ keep → (runEmits keep evs st).backups.length ≤ keep)
    ∧ (∀ (M d0 : Nat) (f : Nat → String) (a0 : List String), keep < M →
        (runEmits keep (dailySeq d0 f M) (timedConstruct a0 [] d0)).backups
            = (rotSnapshots f (M - 1)).take keep ∧
          (runEmits keep (dailySeq d0 f M) (timedConstruct a0 [] d0)).backups.length = keep) := by
  refine ⟨fun a0 b0 d => ⟨rfl, rfl⟩, ?_, ?_, runEmits_backups_le keep, ?_⟩
  · intro st day line h
    simp [timedEmit, h]
  · intro st day line h
    simp [timedEmit, h]
  · intro M d0 f a0 hM
    match M, hM with
    | M + 1, hM =>
      rw [runEmits_dailySeq]
      have hlen : keep ≤ (rotSnapshots f M).length := by
        simp only [rotSnapshots, List.length_reverse, List.length_map, List.length_range]
        omega
      constructor
      · simp only [Nat.add_sub_cancel]
        exact List.take_append_of_le_length hlen
      · rw [List.take_append_of_le_length hlen, List.length_take]
        simp only [rotSnapshots, List.length_reverse, List.length_map, List.length_range]
        omega

/-- Concrete instance of the C3 theorem with retention 1 and 2
rotations: exactly one backup remains, holding the most recent rotated
content. -/
theorem timed_daily_retention_witness :
    (0 : Nat) < 1 ∧
    timedEmit 1 1 "b" (timedConstruct ["a"] [] 0) =
      { active := ["b"], backups := (["a"] :: []).take 1, curDay := 1 } ∧
    (runEmits 1 (dailySeq 0 (fun _ => "x") 2) (timedConstruct ["a"] [] 0)).backups
        = (rotSnapshots (fun _ => "x") 1).take 1 ∧
    (runEmits 1 (dailySeq 0 (fun _ => "x") 2) (timedConstruct ["a"] [] 0)).backups.length = 1 :=
  ⟨Nat.zero_lt_one,
    (timed_daily_retention 1 Nat.zero_lt_one).2.1 (timedConstruct ["a"] [] 0) 1 "b" (by decide),
    ((timed_daily_retention 1 Nat.zero_lt_one).2.2.2.2 2 0 (fun _ => "x") ["a"] (by decide)).1,
    ((timed_daily_retention 1 Nat.zero_lt_one).2.2.2.2 2 0 (fun _ => "x") ["a"] (by decide)).2⟩

/-! ### Single-backup-on-start sink (SingleBackupOnStart policy) -/

/-- On-disk state of the single-backup sink plus a counter of file
existence/size checks (stat calls) performed so far. -/
structure SingleState where
  active : List String
  backup1 : Option (List String)
  statChecks : Nat
deriving DecidableEq

/-- From src `RotatingFileHandlerWithoutShouldRollOver.shouldRollover`:
always returns False, without statting the log file. -/
def shouldRolloverWithout (_st : SingleState) (_record : String) : Bool := false

/-- Modelled from the spec: the rollover of the single-backup handler
moves the current active content to the `.1` backup and recreates the
active file empty. -/
def singleDoRollover (st : SingleState) : SingleState :=
  { st with active := [], backup1 := some st.active }

/-- Modelled from the spec: the emit path of the rotating handler asks
`shouldRollover`, performs the rollover when it answers true, and then
appends the record to the active file.  The sink uses the overridden
`shouldRolloverWithout`. -/
def singleEmit (st : SingleState) (record : String) : SingleState :=
  if shouldRolloverWithout st record then
    let st2 := singleDoRollover st
    { st2 with active := st2.active ++ [record] }
  else
    { st with active := st.active ++ [record] }

/-- Emit a sequence of records in order. -/
def singleRun (records : List String) (st : SingleState) : SingleState :=
  records.foldl singleEmit st

/-- C4: after the startup rollover, the SingleBackupOnStart sink never
rolls over again and never checks the file: the should-roll-over
decision is False for every record, a single emit appends the record to
the active file in place (backup and stat counter untouched), and a
whole run of emits only ever extends the active file. -/
theorem single_backup_never_rolls_on_emit :
    ∀ (st : SingleState) (record : String) (records : List String),
      shouldRolloverWithout st record = false ∧
      singleEmit st record = { st with active := st.active ++ [record] } ∧
      (singleEmit st record).backup1 = st.backup1 ∧
      (singleEmit st record).statChecks = st.statChecks ∧
      singleRun records st = { st with active := st.active ++ records } := by
  have hrun : ∀ (records : List String) (st : SingleState),
      singleRun records st = { st with active := st.active ++ records } := by
    intro records
    induction records with
    | nil => intro st; simp [singleRun]
    | cons r rs ih =>
      intro st
      have h1 : singleRun (r :: rs) st = singleRun rs (singleEmit st r) := rfl
      rw [h1, ih]
      simp [singleEmit, shouldRolloverWithout]
  intro st record records
  exact ⟨rfl, by simp [singleEmit, shouldRolloverWithout], by
    simp [singleEmit, shouldRolloverWithout], by simp [singleEmit, shouldRolloverWithout],
    hrun records st⟩

/-! ### Sink construction (create_log_handler, single-backup branch) -/

/-- The I/O error classes relevant to startup.  In Python both
`FileNotFoundError` and `PermissionError` are subclasses of `OSError`,
so an `except OSError` clause catches either. -/
inductive IOErr
  | fileNotFound
  | permissionDenied
deriving DecidableEq

/-- File-system state seen by sink construction: content of the target
log file when it exists, content of the `.1` backup when it exists, and
whether the directory permissions allow the rollover rename. -/
structure StartupFs where
  activeContent : Option (List String)
  backup1 : Option (List String)
  writable : Bool
deriving DecidableEq

/-- Modelled from the spec: the startup rollover renames the existing
active file to the `.1` backup and recreates the active file empty; when
the active file does not exist it raises the file-not-found OSError, and
when permissions forbid the rename it raises PermissionError. -/
def doRolloverSingle (fs : StartupFs) : Except IOErr StartupFs :=
  if fs.writable then
    match fs.activeContent with
    | some c => .ok { fs with activeContent := some [], backup1 := some c }
    | none => .error .fileNotFound
  else .error .permissionDenied

/-- Outcome of `create_log_handler`: a usable sink over a file-system
state together with soft warnings printed to stderr, or process
termination with an exit code and a fatal message. -/
inductive StartupResult
  | ok (fs : StartupFs) (warnings : List String)
  | fatal (exitCode : Nat) (msg : String)
deriving DecidableEq

def describeErr : IOErr → String
  | .fileNotFound => "file not found"
  | .permissionDenied => "permission denied"

def rolloverWarnMsg (e : IOErr) : String :=
  "Error rolling over log file: " ++ describeErr e

def fatalOpenMsg (e : IOErr) : String :=
  match e with
  | .permissionDenied => "ERROR: Permission denied writing to log path"
  | .fileNotFound => "ERROR: Cannot create log handler for log path"

/-- From src `create_log_handler`, single-backup branch: the outer try
turns a PermissionError or other OSError raised while constructing and
opening the handler into process exit 1; when construction succeeds, the
inner try performs the startup rollover and catches any OSError from it
as a soft warning printed to stderr — in Python PermissionError is also
an OSError, so every rollover error class is caught there, and streaming
proceeds. -/
def create_log_handler_single (openErr : Option IOErr) (fs : StartupFs) : StartupResult :=
  match openErr with
  | some e => .fatal 1 (fatalOpenMsg e)
  | none =>
    match doRolloverSingle fs with
    | .ok fs2 => .ok fs2 []
    | .error e => .ok fs [rolloverWarnMsg e]

/-- C5: constructing the SingleBackupOnStart sink when the target log
file does not exist is not fatal: the rollover is a no-op reported as a
soft warning, no backup file is produced, and the sink is usable (the
result is `ok` over the unchanged file system). -/
theorem single_construct_missing_file_soft (fs : StartupFs)
    (hact : fs.activeContent = none) (hw : fs.writable = true) :
    create_log_handler_single none fs = .ok fs [rolloverWarnMsg .fileNotFound] ∧
    (fs.backup1 = none → ∃ warnings,
      create_log_handler_single none fs = .ok { fs with backup1 := none } warnings) := by
  have hroll : doRolloverSingle fs = .error .fileNotFound := by
    simp [doRolloverSingle, hw, hact]
  constructor
  · simp [create_log_handler_single, hroll]
  · intro hb
    refine ⟨[rolloverWarnMsg .fileNotFound], ?_⟩
    have hfs : { fs with backup1 := none } = fs := by
      cases fs
      simp_all
    rw [hfs]
    simp [create_log_handler_single, hroll]

/-- Concrete instance of the C5 theorem: missing active file, no
pre-existing backup, writable directory. -/
theorem single_construct_missing_file_soft_witness :
    create_log_handler_single none ⟨none, none, true⟩ =
      .ok ⟨none, none, true⟩ [rolloverWarnMsg .fileNotFound] :=
  (single_construct_missing_file_soft ⟨none, none, true⟩ rfl rfl).1

/-- C6 is false as stated: a permission-denied failure of the startup
rollover is caught by the inner `except OSError` clause (PermissionError
is an OSError subclass) and reported as a soft warning, after which the
sink is returned and streaming proceeds — startup does not terminate. -/
theorem rollover_permission_denied_not_fatal :
    doRolloverSingle ⟨some ["old line"], none, false⟩ = .error .permissionDenied ∧
    create_log_handler_single none ⟨some ["old line"], none, false⟩ =
      .ok ⟨some ["old line"], none, false⟩ [rolloverWarnMsg .permissionDenied] :=
  ⟨rfl, rfl⟩

/-- C6 amended: errors raised while constructing/opening the handler are
fatal (exit 1) for permission denied and for any other OSError; but any
OSError raised by the mandatory startup rollover itself — the survivable
file-not-found class and permission denied alike — is downgraded to a
soft warning, after which streaming proceeds. -/
theorem startup_error_policy :
    (∀ (e : IOErr) (fs : StartupFs),
        create_log_handler_single (some e) fs = .fatal 1 (fatalOpenMsg e)) ∧
    (∀ (fs : StartupFs) (e : IOErr), doRolloverSingle fs = .error e →
        create_log_handler_single none fs = .ok fs [rolloverWarnMsg e]) := by
  constructor
  · intro e fs
    rfl
  · intro fs e h
    simp [create_log_handler_single, h]

/-- Concrete instance of the amended C6 theorem: construction failure is
fatal; a permission-denied rollover failure is a soft warning. -/
theorem startup_error_policy_witness :
    create_log_handler_single (some .permissionDenied) ⟨some [], none, true⟩ =
      .fatal 1 (fatalOpenMsg .permissionDenied) ∧
    doRolloverSingle ⟨some ["x"], none, false⟩ = .error .permissionDenied ∧
    create_log_handler_single none ⟨some ["x"], none, false⟩ =
      .ok ⟨some ["x"], none, false⟩ [rolloverWarnMsg .permissionDenied] :=
  ⟨startup_error_policy.1 .permissionDenied ⟨some [], none, true⟩,
    rfl,
    startup_error_policy.2 ⟨some ["x"], none, false⟩ .permissionDenied rfl⟩

/-! ### Stream pump: exit-code contract -/

/-- From src `stream_logs_to_file`: the diagnostic printed when the
producer exits with a positive status. -/
def exitDiagnostic (n : Int) : String :=
  "ERROR: ha core logs exited with code " ++ toString n

/-- From src `stream_logs_to_file` tail: `if process.returncode and
process.returncode > 0: print(diagnostic); return 1` then `return 0`.
`returncode` is `none` when the process has not been reaped; Python
truthiness makes the condition equivalent to the status being present,
nonzero and positive. -/
def pumpResult (returncode : Option Int) : Nat × Option String :=
  match returncode with
  | some n => if n ≠ 0 ∧ 0 < n then (1, some (exitDiagnostic n)) else (0, none)
  | none => (0, none)

/-- C7: a producer exit status observed at end of streaming yields pump
failure 1 with a diagnostic naming the status when it is positive, and
pump success 0 with no diagnostic when it is zero or negative (the
killed-by-signal representation). -/
theorem pump_exit_code_contract (s : Int) :
    (0 < s → pumpResult (some s) =
      (1, some ("ERROR: ha core logs exited with code " ++ toString s))) ∧
    (s ≤ 0 → pumpResult (some s) = (0, none)) := by
  constructor
  · intro h
    simp [pumpResult, exitDiagnostic, h]
    omega
  · intro h
    have h2 : ¬ (s ≠ 0 ∧ 0 < s) := by omega
    simp [pumpResult, h2]

/-- Concrete instances of the C7 theorem: status 2 fails with a message
naming 2; status -15 (terminated by SIGTERM) succeeds. -/
theorem pump_exit_code_contract_witness :
    ((0 : Int) < 2 ∧ pumpResult (some 2) =
        (1, some ("ERROR: ha core logs exited with code " ++ toString (2 : Int)))) ∧
    ((-15 : Int) ≤ 0 ∧ pumpResult (some (-15)) = (0, none)) :=
  ⟨⟨by decide, (pump_exit_code_contract 2).1 (by decide)⟩,
    ⟨by decide, (pump_exit_code_contract (-15)).2 (by decide)⟩⟩

/-! ### Stream pump: signal-driven shutdown -/

/-- Observable actions of the stream pump. -/
inductive PumpAction
  | emitLine (line : String)
  | terminateProducer
  | waitProducer (timeoutSecs : Nat)
  | killProducer
  | closeHandler
  | exitProcess (code : Nat)
deriving DecidableEq

/-- From src `stream_logs_to_file`: `process.wait(timeout=5)`. -/
def gracePeriodSecs : Nat := 5

/-- From src `signal_handler` (registered for SIGTERM and SIGINT):
terminate the producer, wait up to the grace period, kill it if the wait
times out, close the handler, exit the process with status 0. -/
def signalHandlerActions (exitsWithinGrace : Bool) : List PumpAction :=
  [PumpAction.terminateProducer, PumpAction.waitProducer gracePeriodSecs] ++
    (if exitsWithinGrace then [] else [PumpAction.killProducer]) ++
    [PumpAction.closeHandler, PumpAction.exitProcess 0]

/-- From src `stream_logs_to_file`: the streaming loop forwards one line
per iteration; a signal arriving after `signalAfter` iterations runs the
handler, whose `sys.exit(0)` ends the loop, so the lines after that
point are never forwarded. -/
def streamTraceWithSignal (lines : List String) (signalAfter : Nat)
    (exitsWithinGrace : Bool) : List PumpAction :=
  (lines.take signalAfter).map PumpAction.emitLine ++ signalHandlerActions exitsWithinGrace

/-- C8: on SIGTERM or SIGINT during streaming, the pump requests
producer termination, waits at most the 5-second grace period, kills the
producer exactly when the grace period elapses without exit, closes the
sink, finishes with process exit status 0, and forwards no further line
to the sink after the signal: every line in the trace was emitted before
the signal, and the shutdown actions contain no emit. -/
theorem signal_shutdown_contract (lines : List String) (signalAfter : Nat)
    (exitsWithinGrace : Bool) :
    streamTraceWithSignal lines signalAfter exitsWithinGrace =
      (lines.take signalAfter).map PumpAction.emitLine ++ signalHandlerActions exitsWithinGrace
    ∧ gracePeriodSecs = 5
    ∧ PumpAction.terminateProducer ∈ signalHandlerActions exitsWithinGrace
    ∧ PumpAction.waitProducer 5 ∈ signalHandlerActions exitsWithinGrace
    ∧ (PumpAction.killProducer ∈ signalHandlerActions exitsWithinGrace ↔
        exitsWithinGrace = false)
    ∧ PumpAction.closeHandler ∈ signalHandlerActions exitsWithinGrace
    ∧ (∃ front, signalHandlerActions exitsWithinGrace =
        front ++ [PumpAction.exitProcess 0])
    ∧ (∀ line, PumpAction.emitLine line ∉ signalHandlerActions exitsWithinGrace)
    ∧ (∀ line, PumpAction.emitLine line ∈ streamTraceWithSignal lines signalAfter
          exitsWithinGrace → line ∈ lines.take signalAfter) := by
  refine ⟨rfl, rfl, ?_, ?_, ?_, ?_, ?_, ?_, ?_⟩
  · cases exitsWithinGrace <;> simp [signalHandlerActions]
  · cases exitsWithinGrace <;> simp [signalHandlerActions, gracePeriodSecs]
  · cases exitsWithinGrace <;> simp [signalHandlerActions]
  · cases exitsWithinGrace <;> simp [signalHandlerActions]
  · cases exitsWithinGrace
    · exact ⟨[PumpAction.terminateProducer, PumpAction.waitProducer gracePeriodSecs,
        PumpAction.killProducer, PumpAction.closeHandler], rfl⟩
    · exact ⟨[PumpAction.terminateProducer, PumpAction.waitProducer gracePeriodSecs,
        PumpAction.closeHandler], rfl⟩
  · intro line
    cases exitsWithinGrace <;> simp [signalHandlerActions]
  · intro line h
    rcases List.mem_append.mp h with h | h
    · obtain ⟨x, hx, hinj⟩ := List.mem_map.mp h
      cases hinj
      exact hx
    · exfalso
      cases exitsWithinGrace <;> simp [signalHandlerActions] at h

/-- Concrete instance of the C8 theorem: with two lines and the signal
observed after the first, the line forwarded in the trace is from the
pre-signal prefix. -/
theorem signal_shutdown_contract_witness :
    PumpAction.emitLine "a" ∈ streamTraceWithSignal ["a", "b"] 1 false ∧
    "a" ∈ (["a", "b"].take 1) :=
  ⟨by decide,
    (signal_shutdown_contract ["a", "b"] 1 false).2.2.2.2.2.2.2.2 "a" (by decide)⟩

/-! ### Configuration: LOG_ROTATE_DAYS parsing and mode selection -/

/-- Digits of an ASCII decimal numeral folded into a natural number. -/
def parseDigits (cs : List Char) : Option Nat :=
  if cs = [] then none
  else if cs.all Char.isDigit then
    some (cs.foldl (fun a c => a * 10 + (c.toNat - 48)) 0)
  else none

/-- Whitespace trimmed from both ends of a character list. -/
def trimWs (cs : List Char) : List Char :=
  ((cs.dropWhile Char.isWhitespace).reverse.dropWhile Char.isWhitespace).reverse

/-- Modelled Python `int(str)` on the forms relevant here: optional
surrounding whitespace, an optional single sign, and a nonempty run of
ASCII decimal digits; anything else raises ValueError (returns none).
(Exotic accepted forms such as underscore separators or non-ASCII digits
are outside this model.) -/
def pyParseInt (s : String) : Option Int :=
  match trimWs s.data with
  | '-' :: cs => (parseDigits cs).map (fun n => -(n : Int))
  | '+' :: cs => (parseDigits cs).map (fun n => (n : Int))
  | cs => (parseDigits cs).map (fun n => (n : Int))

/-- The possible values of the module-level LOG_ROTATE_DAYS after the
conversion block at the top of src: the unset environment variable stays
None; an empty string is falsy, skips conversion and stays a string; a
truthy string that fails `int()` becomes None via the except clause; a
parseable one becomes its integer value. -/
inductive RotateDays
  | unset
  | emptyStr
  | parseFailed
  | value (n : Int)
deriving DecidableEq

/-- From src module top: `LOG_ROTATE_DAYS = os.getenv("LOG_ROTATE_DAYS")`
followed by `if LOG_ROTATE_DAYS: try: int(...) except: None`. -/
def parseRotateDays (env : Option String) : RotateDays :=
  match env with
  | none => .unset
  | some s =>
    if s = "" then .emptyStr
    else
      match pyParseInt s with
      | some n => .value n
      | none => .parseFailed

/-- The two rotation modes `create_log_handler` can select. -/
inductive HandlerMode
  | timedDaily (backupCount : Int)
  | singleBackupOnStart
deriving DecidableEq

/-- From src `create_log_handler`: `if rotate_days:` — Python truthiness
of the converted value — selects the timed handler with the value passed
through unchanged as `backupCount`; every falsy value (None, empty
string, zero) selects the single-backup handler. -/
def chooseHandlerMode (cfg : RotateDays) : HandlerMode :=
  match cfg with
  | .value n => if n ≠ 0 then .timedDaily n else .singleBackupOnStart
  | _ => .singleBackupOnStart

/-- Mode selected for a given LOG_ROTATE_DAYS environment value. -/
def selectMode (env : Option String) : HandlerMode :=
  chooseHandlerMode (parseRotateDays env)

/-- C10: an unset, empty, unparseable, or zero-parsing LOG_ROTATE_DAYS
selects SingleBackupOnStart (the conversion swallows the parse error, so
this is silent — the selection is a total function with no error
outcome); every value parsing to a nonzero integer, negative ones
included, selects TimedDaily with the parsed integer passed through
unchanged as the retention count. -/
theorem rotate_days_mode_selection :
    selectMode none = .singleBackupOnStart ∧
    selectMode (some "") = .singleBackupOnStart ∧
    (∀ s : String, pyParseInt s = none → selectMode (some s) = .singleBackupOnStart) ∧
    (∀ s : String, pyParseInt s = some 0 → selectMode (some s) = .singleBackupOnStart) ∧
    (∀ (s : String) (n : Int), pyParseInt s = some n → n ≠ 0 →
      selectMode (some s) = .timedDaily n) := by
  refine ⟨rfl, rfl, ?_, ?_, ?_⟩
  · intro s h
    by_cases hs : s = ""
    · subst hs; rfl
    · simp [selectMode, parseRotateDays, hs, h, chooseHandlerMode]
  · intro s h
    by_cases hs : s = ""
    · subst hs; rfl
    · simp [selectMode, parseRotateDays, hs, h, chooseHandlerMode]
  · intro s n h hn
    have hs : ¬ s = "" := by
      intro hs
      subst hs
      simp [pyParseInt, trimWs, parseDigits] at h
    simp [selectMode, parseRotateDays, hs, h, chooseHandlerMode, hn]

/-- Concrete instances of the C10 theorem: unparseable "abc" and "0"
select SingleBackupOnStart; "-3" selects TimedDaily with count -3. -/
theorem rotate_days_mode_selection_witness :
    (pyParseInt "abc" = none ∧ selectMode (some "abc") = .singleBackupOnStart) ∧
    (pyParseInt "0" = some 0 ∧ selectMode (some "0") = .singleBackupOnStart) ∧
    (pyParseInt "-3" = some (-3) ∧ selectMode (some "-3") = .timedDaily (-3)) :=
  ⟨⟨by decide, rotate_days_mode_selection.2.2.1 "abc" (by decide)⟩,
    ⟨by decide, rotate_days_mode_selection.2.2.2.1 "0" (by decide)⟩,
    ⟨by decide, rotate_days_mode_selection.2.2.2.2 "-3" (-3) (by decide) (by decide)⟩⟩

end LogWriter
